import Mathlib

/-!
# Verification of the Paillier cryptosystem implementation

Shallow embedding of `src/paillier/paillier.go`.  Go `*big.Int` values are
modelled as `ℤ`; Go's `big.Int.Div` / `big.Int.Mod` are Euclidean division,
which is `Int.ediv` / `Int.emod`.  Byte slices (`[]byte`) are modelled as
`List ℕ` of base-256 digits; `SetBytes` is `setBytes` (unsigned big-endian
interpretation) and `Bytes` is `natBytes` / `intBytes`.

`math/big` primitives (`Exp`, `ModInverse`) are external collaborators of the
repository; they are modelled by their documented contracts: `Exp b e m` is
`b ^ e mod m` (for `e ≥ 0`, `m > 0`), and `ModInverse g n` is the unique
inverse of `g` in `[0, n)` when `gcd(g, n) = 1`.  The random collaborators
(`rand.Prime`, `rand.Int`) are modelled by making the delivered primes and
nonce explicit parameters (`GenerateKey p q`, the `r` of `EncryptWithNonce`).
-/

namespace Paillier

/-- Model of `big.Int.SetBytes`: interpret a byte string as an unsigned big-endian
integer (the empty string denotes zero). -/
def setBytes (bs : List Nat) : Nat :=
  bs.foldl (fun acc b => 256 * acc + b) 0

/-- Fuel-driven helper for `natBytes` (structural recursion so that the kernel
can evaluate it). -/
def natBytesAux : Nat → Nat → List Nat
  | 0, _ => []
  | _, 0 => []
  | fuel + 1, n + 1 => natBytesAux fuel ((n + 1) / 256) ++ [(n + 1) % 256]

/-- Model of `big.Int.Bytes` on a non-negative integer: minimal unsigned big-endian
byte string (zero yields the empty string). -/
def natBytes (n : Nat) : List Nat := natBytesAux n n

/-- Model of `big.Int.Bytes` applied to one of the (always non-negative) `ℤ` values of
the program. -/
def intBytes (x : Int) : List Nat := natBytes x.toNat

/-- Model of `big.Int.ModInverse g n`: the modular inverse of `g` modulo `n`, in
`[0, n)`.  Modelled from the `math/big` contract by exhaustive search so that
it is kernel-executable; `modInverse_spec` below proves the contract. -/
def modInverse (g n : Int) : Int :=
  match (List.range n.toNat).find? (fun x : Nat => (g * (x : Int)).emod n == 1) with
  | some x => (x : Int)
  | none => 0

/-- Model of `big.Int.Exp b e m` for a non-negative exponent and the positive moduli
used by the program: `b ^ e mod m` (Euclidean remainder). -/
def expMod (b e m : Int) : Int := (b ^ e.toNat).emod m

/-- The single error sentinel `ErrMessageTooLong` of the package. -/
inductive PaillierErr where
  | messageTooLong
  deriving DecidableEq

deriving instance DecidableEq for Except

/-- The `PublicKey` record of the Go source (`N1`, `G`, `NSquared`). -/
structure PublicKey where
  N1 : Int
  G : Int
  NSquared : Int

/-- The `PrivateKey` record of the Go source: embeds `PublicKey`, plus the factorization
and CRT helper values. -/
structure PrivateKey extends PublicKey where
  P : Int
  PP : Int
  Pminusone : Int
  Q : Int
  QQ : Int
  Qminusone : Int
  Pinvq : Int
  Hp : Int
  Hq : Int
  N : Int

/-- The helper `l(u, n) = (u - 1) div n` of the Go source (`Div` is Euclidean
division). -/
def l (u n : Int) : Int := (u - 1).ediv n

/-- The helper `h(p, pp, n)` of the Go source:
`ModInverse(l((1 - n) mod pp, p), p)`. -/
def h (p pp n : Int) : Int := modInverse (l ((1 - n).emod pp) p) p

/-- The `GenerateKey` function, parameterised by the two primes `p`, `q` delivered by the
`rand.Prime` collaborator (the source obtains them from the random source and
then computes all fields deterministically). -/
def GenerateKey (p q : Nat) : PrivateKey :=
  let n : Int := (p : Int) * (q : Int)
  { N1 := n
    NSquared := n * n
    G := n + 1
    P := (p : Int)
    PP := (p : Int) * (p : Int)
    Pminusone := (p : Int) - 1
    Q := (q : Int)
    QQ := (q : Int) * (q : Int)
    Qminusone := (q : Int) - 1
    Pinvq := modInverse (p : Int) (q : Int)
    Hp := h (p : Int) ((p : Int) * (p : Int)) n
    Hq := h (q : Int) ((q : Int) * (q : Int)) n
    N := n }

/-- The `EncryptWithNonce` function: rejects `m ≥ N1` (`N1.Cmp(m) < 1`), otherwise returns
`((1 + m*N1) mod N1²) * (r^N1 mod N1²) mod N1²`. -/
def EncryptWithNonce (pubKey : PublicKey) (r : Int) (plainText : List Nat) :
    Except PaillierErr Int :=
  let m : Int := (setBytes plainText : Nat)
  if pubKey.N1 ≤ m then Except.error PaillierErr.messageTooLong
  else
    Except.ok
      ((((1 + m * pubKey.N1).emod pubKey.NSquared) *
        expMod r pubKey.N1 pubKey.NSquared).emod pubKey.NSquared)

/-- The CRT recombination `crt(mp, mq)` of the Go source. -/
def crt (mp mq : Int) (privKey : PrivateKey) : Int :=
  let u := ((mq - mp) * privKey.Pinvq).emod privKey.Q
  (mp + u * privKey.P).emod privKey.N

/-- The `Decrypt` function: rejects `c ≥ NSquared` (`NSquared.Cmp(c) < 1`), otherwise runs
the CRT-accelerated decryption of the Go source. -/
def Decrypt (privKey : PrivateKey) (cipherText : List Nat) :
    Except PaillierErr (List Nat) :=
  let c : Int := (setBytes cipherText : Nat)
  if privKey.NSquared ≤ c then Except.error PaillierErr.messageTooLong
  else
    let cp := expMod c privKey.Pminusone privKey.PP
    let lp := l cp privKey.P
    let mp := (lp * privKey.Hp).emod privKey.P
    let cq := expMod c privKey.Qminusone privKey.QQ
    let lq := l cq privKey.Q
    let mqq := lq * privKey.Hq
    let mq := mqq.emod privKey.Q
    Except.ok (intBytes (crt mp mq privKey))

/-- The `AddCipher` function: `(c1 * c2) mod NSquared`, on byte strings. -/
def AddCipher (pubKey : PublicKey) (cipher1 cipher2 : List Nat) : List Nat :=
  intBytes ((((setBytes cipher1 : Nat) : Int) *
    ((setBytes cipher2 : Nat) : Int)).emod pubKey.NSquared)

/-- The `Add` function: `(cipher * G ^ constant) mod NSquared`, on byte strings. -/
def Add (pubKey : PublicKey) (cipher constant : List Nat) : List Nat :=
  intBytes ((((setBytes cipher : Nat) : Int) *
    expMod pubKey.G ((setBytes constant : Nat) : Int) pubKey.NSquared).emod
      pubKey.NSquared)

/-- The `Mul` function: `cipher ^ constant mod NSquared`, on byte strings. -/
def Mul (pubKey : PublicKey) (cipher constant : List Nat) : List Nat :=
  intBytes (expMod (((setBytes cipher : Nat) : Int))
    (((setBytes constant : Nat) : Int)) pubKey.NSquared)

/-! ## Byte-encoding lemmas -/

theorem setBytes_append (xs : List Nat) (b : Nat) :
    setBytes (xs ++ [b]) = 256 * setBytes xs + b := by
  simp [setBytes, List.foldl_append]

theorem natBytesAux_setBytes :
    ∀ fuel n : Nat, n ≤ fuel → setBytes (natBytesAux fuel n) = n := by
  intro fuel
  induction fuel with
  | zero =>
    intro n hn
    interval_cases n
    simp [natBytesAux, setBytes]
  | succ f ih =>
    intro n hn
    match n with
    | 0 => simp [natBytesAux, setBytes]
    | n + 1 =>
      have hdiv : (n + 1) / 256 ≤ f := by
        have hlt : (n + 1) / 256 < n + 1 := Nat.div_lt_self (Nat.succ_pos n) (by norm_num)
        omega
      rw [natBytesAux, setBytes_append, ih _ hdiv]
      omega

theorem setBytes_natBytes (n : Nat) : setBytes (natBytes n) = n :=
  natBytesAux_setBytes n n le_rfl

theorem setBytes_intBytes {x : Int} (hx : 0 ≤ x) :
    ((setBytes (intBytes x) : Nat) : Int) = x := by
  rw [intBytes, setBytes_natBytes, Int.toNat_of_nonneg hx]

theorem intBytes_natCast (m : Nat) : intBytes (m : Int) = natBytes m := by
  rw [intBytes, Int.toNat_natCast]

/-! ## Arithmetic helper lemmas -/

/-- Transfer a `Nat.ModEq` to the corresponding `Int.ModEq`. -/
theorem natModEq_to_int {a b n : Nat} (hmod : a ≡ b [MOD n]) :
    (a : Int) ≡ (b : Int) [ZMOD (n : Int)] := by
  unfold Nat.ModEq at hmod
  unfold Int.ModEq
  rw [← Int.natCast_mod, ← Int.natCast_mod, hmod]

/-- An integer congruent to a canonical residue equals it after `emod`. -/
theorem emod_eq_of_modEq_of_range {a r n : Int} (hmod : a ≡ r [ZMOD n])
    (h0 : 0 ≤ r) (h1 : r < n) : a.emod n = r := by
  unfold Int.ModEq at hmod
  calc a.emod n = a % n := rfl
    _ = r % n := hmod
    _ = r := Int.emod_eq_of_lt h0 h1

/-- The contract of `modInverse`: when some inverse of `g` modulo `n` exists
(and `n > 1`), `modInverse g n` is an inverse of `g` lying in `[0, n)`. -/
theorem modInverse_spec (g n : Int) (hn : 1 < n)
    (hex : ∃ z : Int, (g * z).emod n = 1) :
    0 ≤ modInverse g n ∧ modInverse g n < n ∧ (g * modInverse g n).emod n = 1 := by
  obtain ⟨z, hz⟩ := hex
  have hn0 : (0 : Int) < n := lt_trans one_pos hn
  have hfind :
      (List.range n.toNat).find? (fun x : Nat => (g * (x : Int)).emod n == 1) ≠ none := by
    intro hnone
    rw [List.find?_eq_none] at hnone
    have hz' : 0 ≤ z.emod n := Int.emod_nonneg z (ne_of_gt hn0)
    have hzlt : z.emod n < n := Int.emod_lt_of_pos z hn0
    have hmem : (z.emod n).toNat ∈ List.range n.toNat := by
      rw [List.mem_range]
      omega
    have hval : ((z.emod n).toNat : Int) = z.emod n := Int.toNat_of_nonneg hz'
    have hsat : (g * (((z.emod n).toNat : Nat) : Int)).emod n = 1 := by
      rw [hval]
      have hcong : g * z.emod n ≡ g * z [ZMOD n] :=
        Int.ModEq.mul_left g (Int.emod_emod_of_dvd z dvd_rfl)
      unfold Int.ModEq at hcong
      calc (g * z.emod n) % n = (g * z) % n := hcong
        _ = 1 := hz
    exact hnone _ hmem (by simpa using hsat)
  rcases hsome : (List.range n.toNat).find? (fun x : Nat => (g * (x : Int)).emod n == 1)
    with _ | x
  · exact absurd hsome hfind
  · have hpx := List.find?_some hsome
    have hmemx := List.mem_of_find?_eq_some hsome
    rw [List.mem_range] at hmemx
    have hres : modInverse g n = (x : Int) := by
      unfold modInverse
      rw [hsome]
    rw [hres]
    have hxlt : (x : Int) < n := by
      have hcast : (x : Int) < (n.toNat : Int) := by exact_mod_cast hmemx
      rwa [Int.toNat_of_nonneg (le_of_lt hn0)] at hcast
    refine ⟨by positivity, hxlt, ?_⟩
    simpa using hpx

/-- Binomial expansion modulo a square: `(1+x)^k = 1 + k*x + x² * t`. -/
theorem one_add_mul_pow (x : Int) (k : Nat) :
    ∃ t : Int, (1 + x) ^ k = 1 + (k : Int) * x + x ^ 2 * t := by
  induction k with
  | zero => exact ⟨0, by ring⟩
  | succ k ih =>
    obtain ⟨t, ht⟩ := ih
    refine ⟨t + (k : Int) + x * t, ?_⟩
    calc (1 + x) ^ (k + 1) = (1 + x) ^ k * (1 + x) := by ring
      _ = (1 + (k : Int) * x + x ^ 2 * t) * (1 + x) := by rw [ht]
      _ = 1 + ((k : Int) + 1) * x + x ^ 2 * (t + (k : Int) + x * t) := by ring
      _ = 1 + ((k + 1 : Nat) : Int) * x + x ^ 2 * (t + (k : Int) + x * t) := by
            push_cast; ring

/-- Canonical residue of `1 + p*Y` modulo `p*p`. -/
theorem emod_one_add_mul {p : Int} (hp : 2 ≤ p) (Y : Int) :
    (1 + p * Y).emod (p * p) = 1 + p * (Y.emod p) := by
  have hp0 : (0 : Int) < p := by omega
  have hY0 : 0 ≤ Y.emod p := Int.emod_nonneg Y (ne_of_gt hp0)
  have hYlt : Y.emod p < p := Int.emod_lt_of_pos Y hp0
  have hcong : (1 + p * Y) ≡ (1 + p * (Y.emod p)) [ZMOD p * p] := by
    rw [Int.modEq_iff_dvd]
    have hdvd : p ∣ Y.emod p - Y := by
      have h1 : Y.emod p ≡ Y [ZMOD p] := Int.emod_emod_of_dvd Y dvd_rfl
      exact (Int.modEq_iff_dvd.mp h1.symm)
    obtain ⟨k, hk⟩ := hdvd
    exact ⟨k, by rw [mul_assoc]; rw [← hk]; ring⟩
  exact emod_eq_of_modEq_of_range hcong (by nlinarith) (by nlinarith)

/-- Exact division: `l (1 + p*e) p = e` when `0 ≤ e` (this is how `l` is used
on values `≡ 1 (mod p)`). -/
theorem l_one_add_mul {p : Int} (hp : p ≠ 0) (e : Int) : l (1 + p * e) p = e := by
  unfold l
  rw [show 1 + p * e - 1 = p * e by ring]
  exact Int.mul_ediv_cancel_left e hp

/-- Existence of a modular inverse from Bézout coefficients. -/
theorem exists_inverse_of_isCoprime {g n : Int} (hn : 1 < n) (hcop : IsCoprime g n) :
    ∃ z : Int, (g * z).emod n = 1 := by
  obtain ⟨u, v, huv⟩ := hcop
  refine ⟨u, ?_⟩
  have hcong : g * u ≡ 1 [ZMOD n] := by
    rw [Int.modEq_iff_dvd]
    exact ⟨v, by linear_combination -huv⟩
  exact emod_eq_of_modEq_of_range hcong zero_le_one hn

/-- Euler's theorem modulo `a²` for a prime `a`: `s^(a*(a-1)) ≡ 1 (mod a*a)`. -/
theorem pow_totient_sq {a : Nat} (ha : a.Prime) {s : Nat} (hs : s.Coprime a) :
    (s : Int) ^ (a * (a - 1)) ≡ 1 [ZMOD (a : Int) * (a : Int)] := by
  have h2 : s ^ (a ^ 2).totient ≡ 1 [MOD a ^ 2] :=
    Nat.ModEq.pow_totient (hs.pow_right 2)
  have htot : (a ^ 2).totient = a * (a - 1) := by
    rw [Nat.totient_prime_pow ha (by norm_num : 0 < 2)]
    norm_num
  rw [htot] at h2
  have hint := natModEq_to_int h2
  push_cast at hint
  have hsq : ((a : Int)) ^ 2 = (a : Int) * (a : Int) := by ring
  rwa [hsq] at hint

/-- One CRT limb of `Decrypt`: if `c ≡ (1 + m*nn) * s^(a*b) (mod nn²)` with
`nn = a*b` a product of two distinct primes and `s` coprime to `a`, then the
computed partial plaintext equals `m mod a`. -/
theorem decrypt_limb (a b : Nat) (ha : a.Prime) (hb : b.Prime) (hab : a ≠ b)
    (m s c : Nat) (hs : s.Coprime a)
    (nn : Int) (hnn : nn = (a : Int) * (b : Int))
    (hcong : (c : Int) ≡ (1 + (m : Int) * nn) * (s : Int) ^ (a * b) [ZMOD nn ^ 2]) :
    (l (expMod (c : Int) ((a : Int) - 1) ((a : Int) * (a : Int))) (a : Int) *
        h (a : Int) ((a : Int) * (a : Int)) nn).emod (a : Int)
      = ((m : Int)).emod (a : Int) := by
  have ha2 : 2 ≤ a := ha.two_le
  have hA2 : (2 : Int) ≤ (a : Int) := by exact_mod_cast ha2
  have hA0 : (0 : Int) < (a : Int) := by omega
  have hAne : ((a : Int)) ≠ 0 := by omega
  have hA1 : (1 : Int) < (a : Int) := by omega
  -- the exponent `Pminusone` as a natural number
  have hsub : ((a : Int)) - 1 = ((a - 1 : Nat) : Int) := by
    rw [Nat.cast_sub ha.one_lt.le]
    norm_num
  have hexp : (((a : Int)) - 1).toNat = a - 1 := by
    rw [hsub, Int.toNat_natCast]
  have hcp : expMod (c : Int) ((a : Int) - 1) ((a : Int) * (a : Int))
      = ((c : Int) ^ (a - 1)).emod ((a : Int) * (a : Int)) := by
    unfold expMod
    rw [hexp]
  -- congruence of `c^(a-1)` modulo `a*a`
  have hdvd : ((a : Int) * (a : Int)) ∣ nn ^ 2 := by
    rw [hnn]
    exact ⟨(b : Int) * (b : Int), by ring⟩
  have hc2 : (c : Int) ^ (a - 1)
      ≡ ((1 + (m : Int) * nn) * (s : Int) ^ (a * b)) ^ (a - 1)
        [ZMOD (a : Int) * (a : Int)] :=
    (hcong.of_dvd hdvd).pow (a - 1)
  -- binomial part
  obtain ⟨t, ht⟩ := one_add_mul_pow ((m : Int) * nn) (a - 1)
  have hx2 : ((a : Int) * (a : Int)) ∣ ((m : Int) * nn) ^ 2 := by
    obtain ⟨k, hk⟩ := hdvd
    exact ⟨(m : Int) ^ 2 * k, by rw [mul_pow, hk]; ring⟩
  have hbin : (1 + (m : Int) * nn) ^ (a - 1)
      ≡ 1 + ((a - 1 : Nat) : Int) * ((m : Int) * nn) [ZMOD (a : Int) * (a : Int)] := by
    rw [ht]
    rw [Int.modEq_iff_dvd]
    have hdt : ((a : Int) * (a : Int)) ∣ ((m : Int) * nn) ^ 2 * t := hx2.mul_right t
    obtain ⟨k, hk⟩ := hdt
    exact ⟨-k, by linear_combination -hk⟩
  -- Euler part
  have heul : ((s : Int) ^ (a * b)) ^ (a - 1) ≡ 1 [ZMOD (a : Int) * (a : Int)] := by
    have h1 : (s : Int) ^ (a * (a - 1)) ≡ 1 [ZMOD (a : Int) * (a : Int)] :=
      pow_totient_sq ha hs
    have hpow : ((s : Int) ^ (a * b)) ^ (a - 1) = ((s : Int) ^ (a * (a - 1))) ^ b := by
      rw [← pow_mul, ← pow_mul]
      ring_nf
    rw [hpow]
    calc ((s : Int) ^ (a * (a - 1))) ^ b ≡ 1 ^ b [ZMOD (a : Int) * (a : Int)] := h1.pow b
      _ = 1 := one_pow b
  -- combine
  have hcomb : (c : Int) ^ (a - 1)
      ≡ 1 + ((a - 1 : Nat) : Int) * ((m : Int) * nn) [ZMOD (a : Int) * (a : Int)] := by
    calc (c : Int) ^ (a - 1)
        ≡ ((1 + (m : Int) * nn) * (s : Int) ^ (a * b)) ^ (a - 1)
          [ZMOD (a : Int) * (a : Int)] := hc2
      _ = (1 + (m : Int) * nn) ^ (a - 1) * ((s : Int) ^ (a * b)) ^ (a - 1) :=
          mul_pow _ _ _
      _ ≡ (1 + ((a - 1 : Nat) : Int) * ((m : Int) * nn)) * 1
          [ZMOD (a : Int) * (a : Int)] := hbin.mul heul
      _ = 1 + ((a - 1 : Nat) : Int) * ((m : Int) * nn) := mul_one _
  -- rewrite in the form `1 + a * X`
  have hX : 1 + ((a - 1 : Nat) : Int) * ((m : Int) * nn)
      = 1 + (a : Int) * ((m : Int) * ((b : Int) * ((a : Int) - 1))) := by
    rw [hnn, ← hsub]
    ring
  rw [hX] at hcomb
  -- canonical value of cp
  have hcpval : expMod (c : Int) ((a : Int) - 1) ((a : Int) * (a : Int))
      = 1 + (a : Int) * (((m : Int) * ((b : Int) * ((a : Int) - 1))).emod (a : Int)) := by
    rw [hcp]
    unfold Int.ModEq at hcomb
    calc ((c : Int) ^ (a - 1)).emod ((a : Int) * (a : Int))
        = ((c : Int) ^ (a - 1)) % ((a : Int) * (a : Int)) := rfl
      _ = (1 + (a : Int) * ((m : Int) * ((b : Int) * ((a : Int) - 1))))
            % ((a : Int) * (a : Int)) := hcomb
      _ = 1 + (a : Int) * (((m : Int) * ((b : Int) * ((a : Int) - 1))).emod (a : Int)) :=
          emod_one_add_mul hA2 _
  -- the `l` step
  have hlp : l (expMod (c : Int) ((a : Int) - 1) ((a : Int) * (a : Int))) (a : Int)
      = ((m : Int) * ((b : Int) * ((a : Int) - 1))).emod (a : Int) := by
    rw [hcpval, l_one_add_mul hAne]
  -- the value of `h`
  have hgp : (1 - nn) ≡ 1 + (a : Int) * ((b : Int) * ((a : Int) - 1))
      [ZMOD (a : Int) * (a : Int)] := by
    rw [Int.modEq_iff_dvd, hnn]
    exact ⟨(b : Int), by ring⟩
  have hgpval : (1 - nn).emod ((a : Int) * (a : Int))
      = 1 + (a : Int) * (((b : Int) * ((a : Int) - 1)).emod (a : Int)) := by
    unfold Int.ModEq at hgp
    calc (1 - nn).emod ((a : Int) * (a : Int))
        = (1 - nn) % ((a : Int) * (a : Int)) := rfl
      _ = (1 + (a : Int) * ((b : Int) * ((a : Int) - 1))) % ((a : Int) * (a : Int)) := hgp
      _ = 1 + (a : Int) * (((b : Int) * ((a : Int) - 1)).emod (a : Int)) :=
          emod_one_add_mul hA2 _
  have hhval : h (a : Int) ((a : Int) * (a : Int)) nn
      = modInverse (((b : Int) * ((a : Int) - 1)).emod (a : Int)) (a : Int) := by
    unfold h
    rw [hgpval, l_one_add_mul hAne]
  -- the inverse exists: `b*(a-1)` is coprime to `a`
  have hcopair : Nat.Coprime (b * (a - 1)) a := by
    have hba : Nat.Coprime b a := (Nat.coprime_primes hb ha).mpr (Ne.symm hab)
    have hpred : Nat.Coprime (a - 1) a := by
      have hiff := Nat.coprime_sub_self_right (m := a - 1) (n := a) (by omega)
      have hone : a - (a - 1) = 1 := by omega
      rw [hone] at hiff
      exact hiff.mp (Nat.coprime_one_right _)
    exact hba.mul hpred
  have hYcast : ((b * (a - 1) : Nat) : Int) = (b : Int) * ((a : Int) - 1) := by
    push_cast [Nat.cast_sub ha.one_lt.le]
    ring
  have hYmod : ((b : Int) * ((a : Int) - 1)).emod (a : Int)
      ≡ (b : Int) * ((a : Int) - 1) [ZMOD (a : Int)] :=
    Int.emod_emod_of_dvd _ dvd_rfl
  have hexInv : ∃ z : Int,
      ((((b : Int) * ((a : Int) - 1)).emod (a : Int)) * z).emod (a : Int) = 1 := by
    have hic : IsCoprime ((b : Int) * ((a : Int) - 1)) (a : Int) := by
      rw [← hYcast]
      exact Nat.isCoprime_iff_coprime.mpr hcopair
    obtain ⟨z, hz⟩ := exists_inverse_of_isCoprime hA1 hic
    refine ⟨z, ?_⟩
    have hcongz : (((b : Int) * ((a : Int) - 1)).emod (a : Int)) * z
        ≡ ((b : Int) * ((a : Int) - 1)) * z [ZMOD (a : Int)] := hYmod.mul_right z
    unfold Int.ModEq at hcongz
    calc ((((b : Int) * ((a : Int) - 1)).emod (a : Int)) * z).emod (a : Int)
        = ((((b : Int) * ((a : Int) - 1)).emod (a : Int)) * z) % (a : Int) := rfl
      _ = (((b : Int) * ((a : Int) - 1)) * z) % (a : Int) := hcongz
      _ = 1 := hz
  obtain ⟨_, _, hinv⟩ :=
    modInverse_spec (((b : Int) * ((a : Int) - 1)).emod (a : Int)) (a : Int) hA1 hexInv
  -- final chain
  have hfinal : (((m : Int) * ((b : Int) * ((a : Int) - 1))).emod (a : Int)) *
      modInverse (((b : Int) * ((a : Int) - 1)).emod (a : Int)) (a : Int)
      ≡ (m : Int) [ZMOD (a : Int)] := by
    have hXmod : ((m : Int) * ((b : Int) * ((a : Int) - 1))).emod (a : Int)
        ≡ (m : Int) * ((b : Int) * ((a : Int) - 1)) [ZMOD (a : Int)] :=
      Int.emod_emod_of_dvd _ dvd_rfl
    have hinvME : (((b : Int) * ((a : Int) - 1)).emod (a : Int)) *
        modInverse (((b : Int) * ((a : Int) - 1)).emod (a : Int)) (a : Int)
        ≡ 1 [ZMOD (a : Int)] := by
      unfold Int.ModEq
      rw [Int.emod_eq_of_lt zero_le_one hA1]
      exact hinv
    have hYinv : ((b : Int) * ((a : Int) - 1)) *
        modInverse (((b : Int) * ((a : Int) - 1)).emod (a : Int)) (a : Int)
        ≡ 1 [ZMOD (a : Int)] :=
      ((hYmod.symm.mul_right _).trans hinvME)
    calc (((m : Int) * ((b : Int) * ((a : Int) - 1))).emod (a : Int)) *
          modInverse (((b : Int) * ((a : Int) - 1)).emod (a : Int)) (a : Int)
        ≡ ((m : Int) * ((b : Int) * ((a : Int) - 1))) *
          modInverse (((b : Int) * ((a : Int) - 1)).emod (a : Int)) (a : Int)
          [ZMOD (a : Int)] := hXmod.mul_right _
      _ = (m : Int) * (((b : Int) * ((a : Int) - 1)) *
          modInverse (((b : Int) * ((a : Int) - 1)).emod (a : Int)) (a : Int)) := by ring
      _ ≡ (m : Int) * 1 [ZMOD (a : Int)] := hYinv.mul_left _
      _ = (m : Int) := mul_one _
  rw [hlp, hhval]
  exact hfinal

/-- CRT recombination correctness: given the two residues of `m`, `crt`
reconstructs `m` itself (for `m < p*q`). -/
theorem crt_eq (p q : Nat) (hp : p.Prime) (hq : q.Prime) (hpq : p ≠ q)
    (m : Nat) (hm : m < p * q) :
    crt ((m : Int).emod (p : Int)) ((m : Int).emod (q : Int)) (GenerateKey p q)
      = (m : Int) := by
  have hp2 : 2 ≤ p := hp.two_le
  have hq2 : 2 ≤ q := hq.two_le
  have hP0 : (0 : Int) < (p : Int) := by exact_mod_cast hp.pos
  have hQ0 : (0 : Int) < (q : Int) := by exact_mod_cast hq.pos
  have hQ1 : (1 : Int) < (q : Int) := by exact_mod_cast hq.one_lt
  have hcop : Nat.Coprime p q := (Nat.coprime_primes hp hq).mpr hpq
  obtain ⟨hw0, hwlt, hwinv⟩ := modInverse_spec (p : Int) (q : Int) hQ1
    (exists_inverse_of_isCoprime hQ1 (Nat.isCoprime_iff_coprime.mpr hcop))
  unfold crt GenerateKey
  simp only
  set w := modInverse (p : Int) (q : Int) with hwdef
  set mp := (m : Int).emod (p : Int) with hmpdef
  set mq := (m : Int).emod (q : Int) with hmqdef
  set u := ((mq - mp) * w).emod (q : Int) with hudef
  have hmp0 : 0 ≤ mp := Int.emod_nonneg _ (ne_of_gt hP0)
  have hmplt : mp < (p : Int) := Int.emod_lt_of_pos _ hP0
  have hu0 : 0 ≤ u := Int.emod_nonneg _ (ne_of_gt hQ0)
  have hult : u < (q : Int) := Int.emod_lt_of_pos _ hQ0
  have hx0 : 0 ≤ mp + u * (p : Int) := by positivity
  have hxlt : mp + u * (p : Int) < (p : Int) * (q : Int) := by nlinarith
  have hmpc : mp ≡ (m : Int) [ZMOD (p : Int)] := Int.emod_emod_of_dvd _ dvd_rfl
  have hmqc : mq ≡ (m : Int) [ZMOD (q : Int)] := Int.emod_emod_of_dvd _ dvd_rfl
  have huc : u ≡ (mq - mp) * w [ZMOD (q : Int)] := Int.emod_emod_of_dvd _ dvd_rfl
  have hxp : mp + u * (p : Int) ≡ (m : Int) [ZMOD (p : Int)] := by
    have hz : u * (p : Int) ≡ 0 [ZMOD (p : Int)] :=
      (Int.modEq_iff_dvd.mpr ⟨-u, by ring⟩)
    calc mp + u * (p : Int) ≡ (m : Int) + 0 [ZMOD (p : Int)] := hmpc.add hz
      _ = (m : Int) := add_zero _
  have hxq : mp + u * (p : Int) ≡ (m : Int) [ZMOD (q : Int)] := by
    have hwc : (p : Int) * w ≡ 1 [ZMOD (q : Int)] := by
      unfold Int.ModEq
      rw [Int.emod_eq_of_lt zero_le_one hQ1]
      exact hwinv
    calc mp + u * (p : Int)
        ≡ mp + ((mq - mp) * w) * (p : Int) [ZMOD (q : Int)] :=
          (Int.ModEq.refl mp).add (huc.mul_right _)
      _ = mp + (mq - mp) * ((p : Int) * w) := by ring
      _ ≡ mp + (mq - mp) * 1 [ZMOD (q : Int)] :=
          (Int.ModEq.refl mp).add (hwc.mul_left _)
      _ = mq := by ring
      _ ≡ (m : Int) [ZMOD (q : Int)] := hmqc
  have hxpq : mp + u * (p : Int) ≡ (m : Int) [ZMOD (p : Int) * (q : Int)] := by
    have hnatAbs : ((p : Int)).natAbs.Coprime ((q : Int)).natAbs := by
      simpa using hcop
    exact (Int.modEq_and_modEq_iff_modEq_mul hnatAbs).mp ⟨hxp, hxq⟩
  have hmlt : (m : Int) < (p : Int) * (q : Int) := by exact_mod_cast hm
  exact emod_eq_of_modEq_of_range hxpq (by positivity) hmlt

/-! ## Field values of a generated key -/

theorem GenerateKey_N1 (p q : Nat) :
    (GenerateKey p q).toPublicKey.N1 = (p : Int) * (q : Int) := rfl

theorem GenerateKey_G (p q : Nat) :
    (GenerateKey p q).toPublicKey.G = (p : Int) * (q : Int) + 1 := rfl

theorem GenerateKey_NSquared (p q : Nat) :
    (GenerateKey p q).toPublicKey.NSquared
      = ((p : Int) * (q : Int)) * ((p : Int) * (q : Int)) := rfl

theorem GenerateKey_P (p q : Nat) : (GenerateKey p q).P = (p : Int) := rfl

theorem GenerateKey_PP (p q : Nat) :
    (GenerateKey p q).PP = (p : Int) * (p : Int) := rfl

theorem GenerateKey_Pminusone (p q : Nat) :
    (GenerateKey p q).Pminusone = (p : Int) - 1 := rfl

theorem GenerateKey_Q (p q : Nat) : (GenerateKey p q).Q = (q : Int) := rfl

theorem GenerateKey_QQ (p q : Nat) :
    (GenerateKey p q).QQ = (q : Int) * (q : Int) := rfl

theorem GenerateKey_Qminusone (p q : Nat) :
    (GenerateKey p q).Qminusone = (q : Int) - 1 := rfl

theorem GenerateKey_Pinvq (p q : Nat) :
    (GenerateKey p q).Pinvq = modInverse (p : Int) (q : Int) := rfl

theorem GenerateKey_Hp (p q : Nat) :
    (GenerateKey p q).Hp
      = h (p : Int) ((p : Int) * (p : Int)) ((p : Int) * (q : Int)) := rfl

theorem GenerateKey_Hq (p q : Nat) :
    (GenerateKey p q).Hq
      = h (q : Int) ((q : Int) * (q : Int)) ((p : Int) * (q : Int)) := rfl

theorem GenerateKey_N (p q : Nat) :
    (GenerateKey p q).N = (p : Int) * (q : Int) := rfl

theorem toNat_cast_mul (p q : Nat) : (((p : Int) * (q : Int))).toNat = p * q := by
  rw [show (p : Int) * (q : Int) = ((p * q : Nat) : Int) by push_cast; ring,
    Int.toNat_natCast]

/-! ## Master decryption theorem -/

/-- Any ciphertext integer `c < N²` congruent to `(1 + m*N) * s^N (mod N²)`
with `s` coprime to both primes decrypts to `m`. -/
theorem Decrypt_eq_of_modEq (p q m s c : Nat) (hp : p.Prime) (hq : q.Prime)
    (hpq : p ≠ q) (hm : m < p * q) (hsp : s.Coprime p) (hsq : s.Coprime q)
    (hc : c < p * q * (p * q))
    (hcong : (c : Int) ≡ (1 + (m : Int) * ((p : Int) * (q : Int))) *
      (s : Int) ^ (p * q) [ZMOD ((p : Int) * (q : Int)) ^ 2]) :
    Decrypt (GenerateKey p q) (natBytes c) = Except.ok (natBytes m) := by
  have hguard : ¬ (((p : Int) * (q : Int)) * ((p : Int) * (q : Int)) ≤ (c : Int)) := by
    rw [not_le]
    calc (c : Int) < ((p * q * (p * q) : Nat) : Int) := by exact_mod_cast hc
      _ = (p : Int) * (q : Int) * ((p : Int) * (q : Int)) := by push_cast; ring
  have hcongq : (c : Int) ≡ (1 + (m : Int) * ((p : Int) * (q : Int))) *
      (s : Int) ^ (q * p) [ZMOD ((p : Int) * (q : Int)) ^ 2] := by
    rwa [Nat.mul_comm q p]
  have hmp := decrypt_limb p q hp hq hpq m s c hsp
    ((p : Int) * (q : Int)) rfl hcong
  have hmq := decrypt_limb q p hq hp (Ne.symm hpq) m s c hsq
    ((p : Int) * (q : Int)) (mul_comm (p : Int) (q : Int)) hcongq
  simp only [Decrypt, setBytes_natBytes, GenerateKey_NSquared, GenerateKey_P,
    GenerateKey_PP, GenerateKey_Pminusone, GenerateKey_Q, GenerateKey_QQ,
    GenerateKey_Qminusone, GenerateKey_Hp, GenerateKey_Hq]
  rw [if_neg hguard, hmp, hmq, crt_eq p q hp hq hpq m hm, intBytes_natCast]

/-! ## Encryption value and round trip -/

/-- The explicit value returned by a successful `EncryptWithNonce` on a
generated key. -/
theorem EncryptWithNonce_GenerateKey_eq (p q : Nat) (r : Int) (m : Nat)
    (hm : m < p * q) :
    EncryptWithNonce (GenerateKey p q).toPublicKey r (natBytes m)
      = Except.ok
          ((((1 + (m : Int) * ((p : Int) * (q : Int))).emod
              (((p : Int) * (q : Int)) * ((p : Int) * (q : Int)))) *
            ((r ^ (p * q)).emod
              (((p : Int) * (q : Int)) * ((p : Int) * (q : Int))))).emod
            (((p : Int) * (q : Int)) * ((p : Int) * (q : Int)))) := by
  have hguard : ¬ ((p : Int) * (q : Int) ≤ ((m : Nat) : Int)) := by
    rw [not_le]
    calc ((m : Nat) : Int) < ((p * q : Nat) : Int) := by exact_mod_cast hm
      _ = (p : Int) * (q : Int) := by push_cast; ring
  simp only [EncryptWithNonce, setBytes_natBytes, GenerateKey_N1, GenerateKey_NSquared]
  rw [if_neg hguard]
  unfold expMod
  rw [toNat_cast_mul]

/-- The encryption value is in range and congruent to `(1+m*N) * r^N`. -/
theorem encVal_spec (p q : Nat) (r : Int) (m : Nat) (hp0 : 0 < p) (hq0 : 0 < q) :
    0 ≤ (((1 + (m : Int) * ((p : Int) * (q : Int))).emod
            (((p : Int) * (q : Int)) * ((p : Int) * (q : Int))) *
          ((r ^ (p * q)).emod
            (((p : Int) * (q : Int)) * ((p : Int) * (q : Int))))).emod
          (((p : Int) * (q : Int)) * ((p : Int) * (q : Int)))) ∧
    (((1 + (m : Int) * ((p : Int) * (q : Int))).emod
            (((p : Int) * (q : Int)) * ((p : Int) * (q : Int))) *
          ((r ^ (p * q)).emod
            (((p : Int) * (q : Int)) * ((p : Int) * (q : Int))))).emod
          (((p : Int) * (q : Int)) * ((p : Int) * (q : Int))))
        < ((p : Int) * (q : Int)) * ((p : Int) * (q : Int)) ∧
    (((1 + (m : Int) * ((p : Int) * (q : Int))).emod
            (((p : Int) * (q : Int)) * ((p : Int) * (q : Int))) *
          ((r ^ (p * q)).emod
            (((p : Int) * (q : Int)) * ((p : Int) * (q : Int))))).emod
          (((p : Int) * (q : Int)) * ((p : Int) * (q : Int))))
        ≡ (1 + (m : Int) * ((p : Int) * (q : Int))) * r ^ (p * q)
          [ZMOD ((p : Int) * (q : Int)) ^ 2] := by
  have hP0 : (0 : Int) < (p : Int) := by exact_mod_cast hp0
  have hQ0 : (0 : Int) < (q : Int) := by exact_mod_cast hq0
  have hNN0 : (0 : Int) < ((p : Int) * (q : Int)) * ((p : Int) * (q : Int)) := by
    positivity
  refine ⟨Int.emod_nonneg _ (ne_of_gt hNN0), Int.emod_lt_of_pos _ hNN0, ?_⟩
  have hsq : ((p : Int) * (q : Int)) ^ 2
      = ((p : Int) * (q : Int)) * ((p : Int) * (q : Int)) := by ring
  rw [hsq]
  have h1 : (1 + (m : Int) * ((p : Int) * (q : Int))).emod
      (((p : Int) * (q : Int)) * ((p : Int) * (q : Int)))
      ≡ 1 + (m : Int) * ((p : Int) * (q : Int))
      [ZMOD ((p : Int) * (q : Int)) * ((p : Int) * (q : Int))] :=
    Int.emod_emod_of_dvd _ dvd_rfl
  have h2 : (r ^ (p * q)).emod (((p : Int) * (q : Int)) * ((p : Int) * (q : Int)))
      ≡ r ^ (p * q) [ZMOD ((p : Int) * (q : Int)) * ((p : Int) * (q : Int))] :=
    Int.emod_emod_of_dvd _ dvd_rfl
  calc ((1 + (m : Int) * ((p : Int) * (q : Int))).emod
          (((p : Int) * (q : Int)) * ((p : Int) * (q : Int))) *
        ((r ^ (p * q)).emod
          (((p : Int) * (q : Int)) * ((p : Int) * (q : Int))))).emod
        (((p : Int) * (q : Int)) * ((p : Int) * (q : Int)))
      ≡ (1 + (m : Int) * ((p : Int) * (q : Int))).emod
          (((p : Int) * (q : Int)) * ((p : Int) * (q : Int))) *
        ((r ^ (p * q)).emod
          (((p : Int) * (q : Int)) * ((p : Int) * (q : Int))))
        [ZMOD ((p : Int) * (q : Int)) * ((p : Int) * (q : Int))] :=
      Int.emod_emod_of_dvd _ dvd_rfl
    _ ≡ (1 + (m : Int) * ((p : Int) * (q : Int))) * r ^ (p * q)
        [ZMOD ((p : Int) * (q : Int)) * ((p : Int) * (q : Int))] := h1.mul h2

/-- Round trip on a generated key: encryption with a nonce coprime to the
modulus followed by decryption recovers the plaintext. -/
theorem roundTrip (p q m rr : Nat) (hp : p.Prime) (hq : q.Prime) (hpq : p ≠ q)
    (hm : m < p * q) (hrp : rr.Coprime p) (hrq : rr.Coprime q) :
    ∃ cv : Int,
      EncryptWithNonce (GenerateKey p q).toPublicKey (rr : Int) (natBytes m)
          = Except.ok cv ∧
        Decrypt (GenerateKey p q) (intBytes cv) = Except.ok (natBytes m) := by
  refine ⟨_, EncryptWithNonce_GenerateKey_eq p q (rr : Int) m hm, ?_⟩
  obtain ⟨h0, hlt, hcong⟩ := encVal_spec p q (rr : Int) m hp.pos hq.pos
  rw [intBytes]
  have hcnat := Int.toNat_of_nonneg h0
  apply Decrypt_eq_of_modEq p q m rr _ hp hq hpq hm hrp hrq
  · have h2 : ((p : Int) * (q : Int)) * ((p : Int) * (q : Int))
        = ((p * q * (p * q) : Nat) : Int) := by push_cast; ring
    have hlt2 := lt_of_lt_of_eq hlt h2
    omega
  · rw [hcnat]
    exact hcong

/-! ## Congruence lemmas for the homomorphic operations -/

/-- Product congruence: `(1 + m1*n) * (1 + m2*n) ≡ 1 + (m1+m2)*n (mod n²)`. -/
theorem mul_one_add_one_add (m1 m2 n : Int) :
    (1 + m1 * n) * (1 + m2 * n) ≡ 1 + (m1 + m2) * n [ZMOD n ^ 2] := by
  rw [Int.modEq_iff_dvd]
  exact ⟨-(m1 * m2), by ring⟩

/-- Reduction of the plaintext slot modulo `n` lifts to `n²`. -/
theorem one_add_mul_modEq_of_modEq {n a b : Int} (hab : a ≡ b [ZMOD n]) :
    1 + a * n ≡ 1 + b * n [ZMOD n ^ 2] := by
  rw [Int.modEq_iff_dvd] at hab ⊢
  obtain ⟨k, hk⟩ := hab
  exact ⟨k, by linear_combination n * hk⟩

/-- Power congruence: `(1 + aM*n)^k ≡ 1 + k*aM*n (mod n²)`. -/
theorem pow_one_add_mul (aM n : Int) (k : Nat) :
    (1 + aM * n) ^ k ≡ 1 + (k : Int) * aM * n [ZMOD n ^ 2] := by
  obtain ⟨t, ht⟩ := one_add_mul_pow (aM * n) k
  rw [ht, Int.modEq_iff_dvd]
  exact ⟨-(aM ^ 2 * t), by ring⟩

/-- Cast of the `Nat` remainder congruence. -/
theorem natCast_mod_modEq (k N2 : Nat) :
    ((k % N2 : Nat) : Int) ≡ (k : Int) [ZMOD ((N2 : Nat) : Int)] :=
  natModEq_to_int (Nat.mod_modEq k N2)

/-! ## Claim C1 -/

/-- C1 counterexample: the key generated from the primes 5 and 7 (modulus
`N = 35`), the plaintext `m = 1 < N` and the nonce `r = 0 ∈ [0, N)` satisfy
the claim's hypotheses, yet `EncryptWithNonce` yields the ciphertext `0` and
`Decrypt` returns `3 ≠ 1`: the round trip fails for a nonce in `[0, N)` that
is not coprime to `N`. -/
theorem C1_counterexample :
    EncryptWithNonce (GenerateKey 5 7).toPublicKey 0 (natBytes 1) = Except.ok 0 ∧
    Decrypt (GenerateKey 5 7) (intBytes 0) = Except.ok (natBytes 3) ∧
    natBytes 3 ≠ natBytes 1 := by
  refine ⟨by decide, by decide, by decide⟩

/-- C1 (amended): for every key pair produced by `GenerateKey` from two
distinct primes, every plaintext `m` with `0 ≤ m < N`, and every nonce
`r ∈ [0, N)` that is coprime to `N`, `Decrypt(priv, EncryptWithNonce(pub, r, m))`
succeeds and returns `m`.  (The original claim, quantifying over all
`r ∈ [0, N)`, fails at `r = 0`; see `C1_counterexample`.) -/
theorem C1_roundTrip_coprime_nonce (p q m rr : Nat) (hp : p.Prime)
    (hq : q.Prime) (hpq : p ≠ q) (hm : m < p * q) (hrr : rr.Coprime (p * q)) :
    ∃ cv : Int,
      EncryptWithNonce (GenerateKey p q).toPublicKey (rr : Int) (natBytes m)
          = Except.ok cv ∧
        Decrypt (GenerateKey p q) (intBytes cv) = Except.ok (natBytes m) :=
  roundTrip p q m rr hp hq hpq hm
    (hrr.coprime_dvd_right (dvd_mul_right p q))
    (hrr.coprime_dvd_right (dvd_mul_left q p))

/-- Witness for C1: concrete key `(5, 7)`, plaintext `1`, nonce `2`. -/
theorem C1_witness :
    ∃ cv : Int,
      EncryptWithNonce (GenerateKey 5 7).toPublicKey ((2 : Nat) : Int) (natBytes 1)
          = Except.ok cv ∧
        Decrypt (GenerateKey 5 7) (intBytes cv) = Except.ok (natBytes 1) :=
  C1_roundTrip_coprime_nonce 5 7 1 2 (by norm_num) (by norm_num) (by norm_num)
    (by norm_num) (by decide)

/-! ## Claim C2 -/

/-- C2: `EncryptWithNonce` interprets the plaintext as the unsigned
big-endian integer `m = setBytes plainText`, fails with `MessageTooLong` if
and only if `m ≥ N1`, and otherwise returns exactly
`((1 + m*N1) mod N1²) * (r^N1 mod N1²) mod N1²`.  Determinism on equal `r`
and plaintext holds by construction: the model is a pure function. -/
theorem C2_encrypt_contract (pub : PublicKey) (r : Int) (bs : List Nat) :
    (EncryptWithNonce pub r bs = Except.error PaillierErr.messageTooLong
        ↔ pub.N1 ≤ ((setBytes bs : Nat) : Int)) ∧
    (((setBytes bs : Nat) : Int) < pub.N1 →
      EncryptWithNonce pub r bs = Except.ok
        ((((1 + ((setBytes bs : Nat) : Int) * pub.N1).emod pub.NSquared) *
          ((r ^ pub.N1.toNat).emod pub.NSquared)).emod pub.NSquared)) := by
  constructor
  · constructor
    · intro heq
      by_contra hlt
      rw [not_le] at hlt
      simp only [EncryptWithNonce, if_neg (not_le.mpr hlt)] at heq
      exact Except.noConfusion heq
    · intro hle
      simp only [EncryptWithNonce, if_pos hle]
  · intro hlt
    simp only [EncryptWithNonce, if_neg (not_le.mpr hlt), expMod]

/-- Witness for C2: key `(5, 7)`, nonce `2`, plaintext `[1]` (below bound). -/
theorem C2_witness :
    EncryptWithNonce (GenerateKey 5 7).toPublicKey 2 (natBytes 1)
      = Except.ok
        ((((1 + ((setBytes (natBytes 1) : Nat) : Int) *
              (GenerateKey 5 7).toPublicKey.N1).emod
            (GenerateKey 5 7).toPublicKey.NSquared) *
          (((2 : Int) ^ (GenerateKey 5 7).toPublicKey.N1.toNat).emod
            (GenerateKey 5 7).toPublicKey.NSquared)).emod
          (GenerateKey 5 7).toPublicKey.NSquared) :=
  (C2_encrypt_contract (GenerateKey 5 7).toPublicKey 2 (natBytes 1)).2 (by decide)

/-! ## Claim C3 -/

/-- C3: `Decrypt` interprets the ciphertext as the unsigned big-endian
integer `c = setBytes cipherText`, fails if and only if `c ≥ NSquared`, the
error is the (unique) `MessageTooLong` sentinel — the very same constructor
used by the encryption-side check — and there is no other failure path: any
byte input below the bound (the empty sequence denotes zero) succeeds. -/
theorem C3_decrypt_contract (priv : PrivateKey) (bs : List Nat) :
    (Decrypt priv bs = Except.error PaillierErr.messageTooLong
        ↔ priv.NSquared ≤ ((setBytes bs : Nat) : Int)) ∧
    (((setBytes bs : Nat) : Int) < priv.NSquared →
      ∃ out : List Nat, Decrypt priv bs = Except.ok out) ∧
    setBytes ([] : List Nat) = 0 := by
  refine ⟨⟨?_, ?_⟩, ?_, rfl⟩
  · intro heq
    by_contra hlt
    rw [not_le] at hlt
    simp only [Decrypt, if_neg (not_le.mpr hlt)] at heq
    exact Except.noConfusion heq
  · intro hle
    simp only [Decrypt, if_pos hle]
  · intro hlt
    simp only [Decrypt, if_neg (not_le.mpr hlt)]
    exact ⟨_, rfl⟩

/-- Witness for C3: key `(5, 7)`, ciphertext `648 < 1225`. -/
theorem C3_witness :
    ∃ out : List Nat, Decrypt (GenerateKey 5 7) (natBytes 648) = Except.ok out :=
  (C3_decrypt_contract (GenerateKey 5 7) (natBytes 648)).2.1 (by decide)

/-! ## Claim C10 -/

/-- C10: `EncryptWithNonce` performs no validation of the nonce: for every
public key, every non-negative `r` (including `r = 0` and `r ≥ N1`), and
every plaintext below the modulus, it succeeds, applying the encryption
formula to that `r`. -/
theorem C10_no_nonce_validation (pub : PublicKey) (r : Int) (bs : List Nat)
    (_hr : 0 ≤ r) (hm : ((setBytes bs : Nat) : Int) < pub.N1) :
    EncryptWithNonce pub r bs = Except.ok
      ((((1 + ((setBytes bs : Nat) : Int) * pub.N1).emod pub.NSquared) *
        ((r ^ pub.N1.toNat).emod pub.NSquared)).emod pub.NSquared) := by
  simp only [EncryptWithNonce, if_neg (not_le.mpr hm), expMod]

/-- Witness for C10: key `(5, 7)`, nonce `40 ≥ N = 35`, plaintext `[1]`. -/
theorem C10_witness :
    EncryptWithNonce (GenerateKey 5 7).toPublicKey 40 (natBytes 1)
      = Except.ok
        ((((1 + ((setBytes (natBytes 1) : Nat) : Int) *
              (GenerateKey 5 7).toPublicKey.N1).emod
            (GenerateKey 5 7).toPublicKey.NSquared) *
          (((40 : Int) ^ (GenerateKey 5 7).toPublicKey.N1.toNat).emod
            (GenerateKey 5 7).toPublicKey.NSquared)).emod
          (GenerateKey 5 7).toPublicKey.NSquared) :=
  C10_no_nonce_validation (GenerateKey 5 7).toPublicKey 40 (natBytes 1)
    (by norm_num) (by decide)

/-! ## Claim C7 -/

/-- C7: every key pair produced by `GenerateKey` (from two distinct primes
delivered by the prime-generation collaborator) satisfies `N1 = P*Q`,
`NSquared = N1*N1`, `G = N1 + 1`, `PP = P*P`, `QQ = Q*Q`,
`Pminusone = P - 1`, `Qminusone = Q - 1`, `Pinvq = P⁻¹ mod Q` (the canonical
inverse in `[0, Q)`), and the private field `N` equals the public modulus
`N1`. -/
theorem C7_generateKey_invariants (p q : Nat) (hp : p.Prime) (hq : q.Prime)
    (hpq : p ≠ q) :
    (GenerateKey p q).toPublicKey.N1 = (GenerateKey p q).P * (GenerateKey p q).Q ∧
    (GenerateKey p q).toPublicKey.NSquared
      = (GenerateKey p q).toPublicKey.N1 * (GenerateKey p q).toPublicKey.N1 ∧
    (GenerateKey p q).toPublicKey.G = (GenerateKey p q).toPublicKey.N1 + 1 ∧
    (GenerateKey p q).PP = (GenerateKey p q).P * (GenerateKey p q).P ∧
    (GenerateKey p q).QQ = (GenerateKey p q).Q * (GenerateKey p q).Q ∧
    (GenerateKey p q).Pminusone = (GenerateKey p q).P - 1 ∧
    (GenerateKey p q).Qminusone = (GenerateKey p q).Q - 1 ∧
    0 ≤ (GenerateKey p q).Pinvq ∧
    (GenerateKey p q).Pinvq < (GenerateKey p q).Q ∧
    ((GenerateKey p q).P * (GenerateKey p q).Pinvq).emod (GenerateKey p q).Q = 1 ∧
    (GenerateKey p q).N = (GenerateKey p q).toPublicKey.N1 := by
  have hQ1 : (1 : Int) < (q : Int) := by exact_mod_cast hq.one_lt
  have hcop : Nat.Coprime p q := (Nat.coprime_primes hp hq).mpr hpq
  obtain ⟨h0, h1, h2⟩ := modInverse_spec (p : Int) (q : Int) hQ1
    (exists_inverse_of_isCoprime hQ1 (Nat.isCoprime_iff_coprime.mpr hcop))
  exact ⟨rfl, rfl, rfl, rfl, rfl, rfl, rfl, h0, h1, h2, rfl⟩

/-- Witness for C7: the key generated from the primes 5 and 7. -/
theorem C7_witness :
    (GenerateKey 5 7).toPublicKey.N1 = (GenerateKey 5 7).P * (GenerateKey 5 7).Q ∧
    (GenerateKey 5 7).toPublicKey.NSquared
      = (GenerateKey 5 7).toPublicKey.N1 * (GenerateKey 5 7).toPublicKey.N1 ∧
    (GenerateKey 5 7).toPublicKey.G = (GenerateKey 5 7).toPublicKey.N1 + 1 ∧
    (GenerateKey 5 7).PP = (GenerateKey 5 7).P * (GenerateKey 5 7).P ∧
    (GenerateKey 5 7).QQ = (GenerateKey 5 7).Q * (GenerateKey 5 7).Q ∧
    (GenerateKey 5 7).Pminusone = (GenerateKey 5 7).P - 1 ∧
    (GenerateKey 5 7).Qminusone = (GenerateKey 5 7).Q - 1 ∧
    0 ≤ (GenerateKey 5 7).Pinvq ∧
    (GenerateKey 5 7).Pinvq < (GenerateKey 5 7).Q ∧
    ((GenerateKey 5 7).P * (GenerateKey 5 7).Pinvq).emod (GenerateKey 5 7).Q = 1 ∧
    (GenerateKey 5 7).N = (GenerateKey 5 7).toPublicKey.N1 :=
  C7_generateKey_invariants 5 7 (by norm_num) (by norm_num) (by norm_num)

/-! ## Shared helpers for the homomorphic claims -/

/-- Inversion of a successful encryption: the returned ciphertext is the
explicit encryption value. -/
theorem enc_ok_inv {p q m : Nat} {r c : Int} (hm : m < p * q)
    (hok : EncryptWithNonce (GenerateKey p q).toPublicKey r (natBytes m)
      = Except.ok c) :
    c = (((1 + (m : Int) * ((p : Int) * (q : Int))).emod
            (((p : Int) * (q : Int)) * ((p : Int) * (q : Int))) *
          ((r ^ (p * q)).emod
            (((p : Int) * (q : Int)) * ((p : Int) * (q : Int))))).emod
          (((p : Int) * (q : Int)) * ((p : Int) * (q : Int)))) := by
  have henc := EncryptWithNonce_GenerateKey_eq p q r m hm
  rw [hok] at henc
  exact Except.ok.inj henc

/-- Decryption of a canonically reduced value congruent to a valid Paillier
ciphertext. -/
theorem Decrypt_intBytes_emod (p q M s : Nat) (hp : p.Prime) (hq : q.Prime)
    (hpq : p ≠ q) (hM : M < p * q) (hsp : s.Coprime p) (hsq : s.Coprime q)
    (X : Int)
    (hcong : X ≡ (1 + (M : Int) * ((p : Int) * (q : Int))) * (s : Int) ^ (p * q)
      [ZMOD ((p : Int) * (q : Int)) ^ 2]) :
    Decrypt (GenerateKey p q)
        (intBytes (X.emod (((p : Int) * (q : Int)) * ((p : Int) * (q : Int)))))
      = Except.ok (natBytes M) := by
  have hP0 : (0 : Int) < (p : Int) := by exact_mod_cast hp.pos
  have hQ0 : (0 : Int) < (q : Int) := by exact_mod_cast hq.pos
  have hNN0 : (0 : Int) < ((p : Int) * (q : Int)) * ((p : Int) * (q : Int)) := by
    positivity
  have h0 : 0 ≤ X.emod (((p : Int) * (q : Int)) * ((p : Int) * (q : Int))) :=
    Int.emod_nonneg _ (ne_of_gt hNN0)
  have hlt : X.emod (((p : Int) * (q : Int)) * ((p : Int) * (q : Int)))
      < ((p : Int) * (q : Int)) * ((p : Int) * (q : Int)) :=
    Int.emod_lt_of_pos _ hNN0
  rw [intBytes]
  apply Decrypt_eq_of_modEq p q M s _ hp hq hpq hM hsp hsq
  · have h2 : ((p : Int) * (q : Int)) * ((p : Int) * (q : Int))
        = ((p * q * (p * q) : Nat) : Int) := by push_cast; ring
    have hlt2 := lt_of_lt_of_eq hlt h2
    omega
  · rw [Int.toNat_of_nonneg h0]
    have hstep : X.emod (((p : Int) * (q : Int)) * ((p : Int) * (q : Int)))
        ≡ X [ZMOD ((p : Int) * (q : Int)) ^ 2] :=
      Int.emod_emod_of_dvd X (dvd_of_eq (by ring))
    exact hstep.trans hcong

/-- The reduced-sum congruence used by the homomorphic addition claims. -/
theorem plaintext_slot_reduce (p q mm : Nat) :
    (1 + ((mm : Nat) : Int) * ((p : Int) * (q : Int)))
      ≡ 1 + (((mm % (p * q) : Nat)) : Int) * ((p : Int) * (q : Int))
      [ZMOD ((p : Int) * (q : Int)) ^ 2] := by
  apply one_add_mul_modEq_of_modEq
  have hcast : ((p * q : Nat) : Int) = (p : Int) * (q : Int) := by push_cast; ring
  have hme := (natCast_mod_modEq mm (p * q)).symm
  rwa [hcast] at hme

/-! ## Claim C4 -/

/-- C4 counterexample: key from primes 5 and 7, plaintexts `m1 = 1`,
`m2 = 0`, nonces `r1 = r2 = 0 ∈ [0, N)`.  Both encryptions succeed (value
`0`), `AddCipher` of the two ciphertexts decrypts to `3`, but
`(m1 + m2) mod N = 1 ≠ 3`: the claim fails for nonces not coprime to `N`. -/
theorem C4_counterexample :
    EncryptWithNonce (GenerateKey 5 7).toPublicKey 0 (natBytes 1) = Except.ok 0 ∧
    EncryptWithNonce (GenerateKey 5 7).toPublicKey 0 (natBytes 0) = Except.ok 0 ∧
    Decrypt (GenerateKey 5 7)
        (AddCipher (GenerateKey 5 7).toPublicKey (intBytes 0) (intBytes 0))
      = Except.ok (natBytes 3) ∧
    natBytes 3 ≠ natBytes ((1 + 0) % 35) := by
  refine ⟨by decide, by decide, by decide, by decide⟩

/-- C4 (amended): for every key pair from two distinct primes, plaintexts
`m1, m2 < N` and nonces `r1, r2 ∈ [0, N)` **coprime to `N`**, `AddCipher` of
the two ciphertexts equals `(c1 * c2) mod N²` and decrypts to
`(m1 + m2) mod N`. -/
theorem C4_addCipher_amended (p q m1 m2 r1 r2 : Nat) (hp : p.Prime)
    (hq : q.Prime) (hpq : p ≠ q) (hm1 : m1 < p * q) (hm2 : m2 < p * q)
    (hr1 : r1.Coprime (p * q)) (hr2 : r2.Coprime (p * q)) :
    ∀ c1 c2 : Int,
      EncryptWithNonce (GenerateKey p q).toPublicKey (r1 : Int) (natBytes m1)
          = Except.ok c1 →
      EncryptWithNonce (GenerateKey p q).toPublicKey (r2 : Int) (natBytes m2)
          = Except.ok c2 →
      ((setBytes (AddCipher (GenerateKey p q).toPublicKey
            (intBytes c1) (intBytes c2)) : Nat) : Int)
          = (c1 * c2).emod ((GenerateKey p q).toPublicKey.NSquared) ∧
        Decrypt (GenerateKey p q)
            (AddCipher (GenerateKey p q).toPublicKey (intBytes c1) (intBytes c2))
          = Except.ok (natBytes ((m1 + m2) % (p * q))) := by
  intro c1 c2 h1 h2
  have hc1 := enc_ok_inv hm1 h1
  have hc2 := enc_ok_inv hm2 h2
  obtain ⟨hv1nn, hv1lt, hv1c⟩ := encVal_spec p q (r1 : Int) m1 hp.pos hq.pos
  obtain ⟨hv2nn, hv2lt, hv2c⟩ := encVal_spec p q (r2 : Int) m2 hp.pos hq.pos
  rw [← hc1] at hv1nn hv1lt hv1c
  rw [← hc2] at hv2nn hv2lt hv2c
  have hP0 : (0 : Int) < (p : Int) := by exact_mod_cast hp.pos
  have hQ0 : (0 : Int) < (q : Int) := by exact_mod_cast hq.pos
  have hNN0 : (0 : Int) < ((p : Int) * (q : Int)) * ((p : Int) * (q : Int)) := by
    positivity
  have hA : AddCipher (GenerateKey p q).toPublicKey (intBytes c1) (intBytes c2)
      = intBytes ((c1 * c2).emod (((p : Int) * (q : Int)) * ((p : Int) * (q : Int)))) := by
    simp only [AddCipher, GenerateKey_NSquared]
    rw [setBytes_intBytes hv1nn, setBytes_intBytes hv2nn]
  constructor
  · rw [hA, GenerateKey_NSquared]
    exact setBytes_intBytes (Int.emod_nonneg _ (ne_of_gt hNN0))
  · rw [hA]
    have hMlt : (m1 + m2) % (p * q) < p * q :=
      Nat.mod_lt _ (Nat.mul_pos hp.pos hq.pos)
    have hsp : ((r1 * r2) : Nat).Coprime p :=
      ((hr1.coprime_dvd_right (dvd_mul_right p q)).mul
        (hr2.coprime_dvd_right (dvd_mul_right p q)))
    have hsq : ((r1 * r2) : Nat).Coprime q :=
      ((hr1.coprime_dvd_right (dvd_mul_left q p)).mul
        (hr2.coprime_dvd_right (dvd_mul_left q p)))
    apply Decrypt_intBytes_emod p q ((m1 + m2) % (p * q)) (r1 * r2) hp hq hpq
      hMlt hsp hsq
    calc c1 * c2
        ≡ ((1 + (m1 : Int) * ((p : Int) * (q : Int))) * (r1 : Int) ^ (p * q)) *
          ((1 + (m2 : Int) * ((p : Int) * (q : Int))) * (r2 : Int) ^ (p * q))
          [ZMOD ((p : Int) * (q : Int)) ^ 2] := hv1c.mul hv2c
      _ = ((1 + (m1 : Int) * ((p : Int) * (q : Int))) *
            (1 + (m2 : Int) * ((p : Int) * (q : Int)))) *
          ((r1 : Int) ^ (p * q) * (r2 : Int) ^ (p * q)) := by ring
      _ ≡ (1 + ((m1 : Int) + (m2 : Int)) * ((p : Int) * (q : Int))) *
          ((r1 : Int) ^ (p * q) * (r2 : Int) ^ (p * q))
          [ZMOD ((p : Int) * (q : Int)) ^ 2] :=
          (mul_one_add_one_add (m1 : Int) (m2 : Int) ((p : Int) * (q : Int))).mul_right _
      _ = (1 + ((m1 + m2 : Nat) : Int) * ((p : Int) * (q : Int))) *
          ((r1 : Int) ^ (p * q) * (r2 : Int) ^ (p * q)) := by push_cast; ring
      _ ≡ (1 + (((m1 + m2) % (p * q) : Nat) : Int) * ((p : Int) * (q : Int))) *
          ((r1 : Int) ^ (p * q) * (r2 : Int) ^ (p * q))
          [ZMOD ((p : Int) * (q : Int)) ^ 2] :=
          (plaintext_slot_reduce p q (m1 + m2)).mul_right _
      _ = (1 + (((m1 + m2) % (p * q) : Nat) : Int) * ((p : Int) * (q : Int))) *
          ((r1 * r2 : Nat) : Int) ^ (p * q) := by push_cast; ring

/-- Witness for C4: key `(5, 7)`, `m1 = 1`, `m2 = 2`, nonces `r1 = r2 = 1`
(so the ciphertexts are `36` and `71`). -/
theorem C4_witness :
    ((setBytes (AddCipher (GenerateKey 5 7).toPublicKey
          (intBytes 36) (intBytes 71)) : Nat) : Int)
        = ((36 : Int) * 71).emod ((GenerateKey 5 7).toPublicKey.NSquared) ∧
      Decrypt (GenerateKey 5 7)
          (AddCipher (GenerateKey 5 7).toPublicKey (intBytes 36) (intBytes 71))
        = Except.ok (natBytes ((1 + 2) % (5 * 7))) :=
  C4_addCipher_amended 5 7 1 2 1 1 (by norm_num) (by norm_num) (by norm_num)
    (by norm_num) (by norm_num) (by decide) (by decide) 36 71
    (by decide) (by decide)

/-! ## Claim C5 -/

/-- C5 counterexample: key from primes 5 and 7, plaintext `m = 1`, nonce
`r = 0 ∈ [0, N)`, constant `k = 0`.  The encryption succeeds with ciphertext
`0`, `Add` yields a ciphertext that decrypts to `3`, but
`(m + k) mod N = 1 ≠ 3`. -/
theorem C5_counterexample :
    EncryptWithNonce (GenerateKey 5 7).toPublicKey 0 (natBytes 1) = Except.ok 0 ∧
    Decrypt (GenerateKey 5 7)
        (Add (GenerateKey 5 7).toPublicKey (intBytes 0) (natBytes 0))
      = Except.ok (natBytes 3) ∧
    natBytes 3 ≠ natBytes ((1 + 0) % 35) := by
  refine ⟨by decide, by decide, by decide⟩

/-- C5 (amended): for every key pair from two distinct primes, plaintext
`m < N`, nonce `r ∈ [0, N)` **coprime to `N`**, and every non-negative
constant `k` (no bound on `k`; wraparound is by design), `Add` equals
`(cipher * G^k) mod N²` and decrypts to `(m + k) mod N`. -/
theorem C5_add_amended (p q m k rr : Nat) (hp : p.Prime) (hq : q.Prime)
    (hpq : p ≠ q) (hm : m < p * q) (hrr : rr.Coprime (p * q)) :
    ∀ cv : Int,
      EncryptWithNonce (GenerateKey p q).toPublicKey (rr : Int) (natBytes m)
          = Except.ok cv →
      ((setBytes (Add (GenerateKey p q).toPublicKey
            (intBytes cv) (natBytes k)) : Nat) : Int)
          = (cv * (GenerateKey p q).toPublicKey.G ^ k).emod
              ((GenerateKey p q).toPublicKey.NSquared) ∧
        Decrypt (GenerateKey p q)
            (Add (GenerateKey p q).toPublicKey (intBytes cv) (natBytes k))
          = Except.ok (natBytes ((m + k) % (p * q))) := by
  intro cv hok
  have hcv := enc_ok_inv hm hok
  obtain ⟨hvnn, hvlt, hvc⟩ := encVal_spec p q (rr : Int) m hp.pos hq.pos
  rw [← hcv] at hvnn hvlt hvc
  have hP0 : (0 : Int) < (p : Int) := by exact_mod_cast hp.pos
  have hQ0 : (0 : Int) < (q : Int) := by exact_mod_cast hq.pos
  have hNN0 : (0 : Int) < ((p : Int) * (q : Int)) * ((p : Int) * (q : Int)) := by
    positivity
  have hAdd : Add (GenerateKey p q).toPublicKey (intBytes cv) (natBytes k)
      = intBytes ((cv * (((p : Int) * (q : Int) + 1) ^ k).emod
          (((p : Int) * (q : Int)) * ((p : Int) * (q : Int)))).emod
          (((p : Int) * (q : Int)) * ((p : Int) * (q : Int)))) := by
    simp only [Add, GenerateKey_NSquared, GenerateKey_G, setBytes_natBytes]
    rw [setBytes_intBytes hvnn]
    unfold expMod
    rw [Int.toNat_natCast]
  have hGpow : (((p : Int) * (q : Int) + 1) ^ k).emod
      (((p : Int) * (q : Int)) * ((p : Int) * (q : Int)))
      ≡ ((p : Int) * (q : Int) + 1) ^ k [ZMOD ((p : Int) * (q : Int)) ^ 2] :=
    Int.emod_emod_of_dvd _ (dvd_of_eq (by ring))
  constructor
  · rw [hAdd, GenerateKey_NSquared, GenerateKey_G]
    have hcongr : cv * (((p : Int) * (q : Int) + 1) ^ k).emod
        (((p : Int) * (q : Int)) * ((p : Int) * (q : Int)))
        ≡ cv * ((p : Int) * (q : Int) + 1) ^ k
        [ZMOD ((p : Int) * (q : Int)) * ((p : Int) * (q : Int))] :=
      Int.ModEq.mul_left cv (Int.emod_emod_of_dvd _ dvd_rfl)
    exact (setBytes_intBytes (Int.emod_nonneg _ (ne_of_gt hNN0))).trans hcongr
  · rw [hAdd]
    have hMlt : (m + k) % (p * q) < p * q :=
      Nat.mod_lt _ (Nat.mul_pos hp.pos hq.pos)
    apply Decrypt_intBytes_emod p q ((m + k) % (p * q)) rr hp hq hpq hMlt
      (hrr.coprime_dvd_right (dvd_mul_right p q))
      (hrr.coprime_dvd_right (dvd_mul_left q p))
    calc cv * (((p : Int) * (q : Int) + 1) ^ k).emod
          (((p : Int) * (q : Int)) * ((p : Int) * (q : Int)))
        ≡ cv * ((p : Int) * (q : Int) + 1) ^ k
          [ZMOD ((p : Int) * (q : Int)) ^ 2] := Int.ModEq.mul_left cv hGpow
      _ ≡ ((1 + (m : Int) * ((p : Int) * (q : Int))) * (rr : Int) ^ (p * q)) *
          ((p : Int) * (q : Int) + 1) ^ k
          [ZMOD ((p : Int) * (q : Int)) ^ 2] := hvc.mul_right _
      _ = ((1 + (m : Int) * ((p : Int) * (q : Int))) *
          (1 + 1 * ((p : Int) * (q : Int))) ^ k) * (rr : Int) ^ (p * q) := by
            ring_nf
      _ ≡ ((1 + (m : Int) * ((p : Int) * (q : Int))) *
          (1 + (k : Int) * 1 * ((p : Int) * (q : Int)))) * (rr : Int) ^ (p * q)
          [ZMOD ((p : Int) * (q : Int)) ^ 2] :=
          (((pow_one_add_mul 1 ((p : Int) * (q : Int)) k).mul_left
            (1 + (m : Int) * ((p : Int) * (q : Int)))).mul_right _)
      _ = ((1 + (m : Int) * ((p : Int) * (q : Int))) *
          (1 + (k : Int) * ((p : Int) * (q : Int)))) * (rr : Int) ^ (p * q) := by
            ring
      _ ≡ (1 + ((m : Int) + (k : Int)) * ((p : Int) * (q : Int))) *
          (rr : Int) ^ (p * q) [ZMOD ((p : Int) * (q : Int)) ^ 2] :=
          (mul_one_add_one_add (m : Int) (k : Int) ((p : Int) * (q : Int))).mul_right _
      _ = (1 + ((m + k : Nat) : Int) * ((p : Int) * (q : Int))) *
          (rr : Int) ^ (p * q) := by push_cast; ring
      _ ≡ (1 + (((m + k) % (p * q) : Nat) : Int) * ((p : Int) * (q : Int))) *
          (rr : Int) ^ (p * q) [ZMOD ((p : Int) * (q : Int)) ^ 2] :=
          (plaintext_slot_reduce p q (m + k)).mul_right _

/-- Witness for C5: key `(5, 7)`, `m = 1`, nonce `1` (ciphertext `36`),
constant `k = 3`. -/
theorem C5_witness :
    ((setBytes (Add (GenerateKey 5 7).toPublicKey
          (intBytes 36) (natBytes 3)) : Nat) : Int)
        = ((36 : Int) * (GenerateKey 5 7).toPublicKey.G ^ 3).emod
            ((GenerateKey 5 7).toPublicKey.NSquared) ∧
      Decrypt (GenerateKey 5 7)
          (Add (GenerateKey 5 7).toPublicKey (intBytes 36) (natBytes 3))
        = Except.ok (natBytes ((1 + 3) % (5 * 7))) :=
  C5_add_amended 5 7 1 3 1 (by norm_num) (by norm_num) (by norm_num)
    (by norm_num) (by decide) 36 (by decide)

/-! ## Claim C6 -/

/-- C6 counterexample: key from primes 5 and 7, plaintext `m = 1`, nonce
`r = 0 ∈ [0, N)`, constant `k = 1`.  The encryption succeeds with ciphertext
`0`, `Mul` yields a ciphertext that decrypts to `3`, but
`(m * k) mod N = 1 ≠ 3`. -/
theorem C6_counterexample :
    EncryptWithNonce (GenerateKey 5 7).toPublicKey 0 (natBytes 1) = Except.ok 0 ∧
    Decrypt (GenerateKey 5 7)
        (Mul (GenerateKey 5 7).toPublicKey (intBytes 0) (natBytes 1))
      = Except.ok (natBytes 3) ∧
    natBytes 3 ≠ natBytes ((1 * 1) % 35) := by
  refine ⟨by decide, by decide, by decide⟩

/-- C6 (amended): for every key pair from two distinct primes, plaintext
`m < N`, nonce `r ∈ [0, N)` **coprime to `N`**, and every non-negative
constant `k`, `Mul` equals `cipher^k mod N²` and decrypts to
`(m * k) mod N`. -/
theorem C6_mul_amended (p q m k rr : Nat) (hp : p.Prime) (hq : q.Prime)
    (hpq : p ≠ q) (hm : m < p * q) (hrr : rr.Coprime (p * q)) :
    ∀ cv : Int,
      EncryptWithNonce (GenerateKey p q).toPublicKey (rr : Int) (natBytes m)
          = Except.ok cv →
      ((setBytes (Mul (GenerateKey p q).toPublicKey
            (intBytes cv) (natBytes k)) : Nat) : Int)
          = (cv ^ k).emod ((GenerateKey p q).toPublicKey.NSquared) ∧
        Decrypt (GenerateKey p q)
            (Mul (GenerateKey p q).toPublicKey (intBytes cv) (natBytes k))
          = Except.ok (natBytes ((m * k) % (p * q))) := by
  intro cv hok
  have hcv := enc_ok_inv hm hok
  obtain ⟨hvnn, hvlt, hvc⟩ := encVal_spec p q (rr : Int) m hp.pos hq.pos
  rw [← hcv] at hvnn hvlt hvc
  have hP0 : (0 : Int) < (p : Int) := by exact_mod_cast hp.pos
  have hQ0 : (0 : Int) < (q : Int) := by exact_mod_cast hq.pos
  have hNN0 : (0 : Int) < ((p : Int) * (q : Int)) * ((p : Int) * (q : Int)) := by
    positivity
  have hMul : Mul (GenerateKey p q).toPublicKey (intBytes cv) (natBytes k)
      = intBytes ((cv ^ k).emod
          (((p : Int) * (q : Int)) * ((p : Int) * (q : Int)))) := by
    simp only [Mul, GenerateKey_NSquared, setBytes_natBytes]
    rw [setBytes_intBytes hvnn]
    unfold expMod
    rw [Int.toNat_natCast]
  constructor
  · rw [hMul, GenerateKey_NSquared]
    exact setBytes_intBytes (Int.emod_nonneg _ (ne_of_gt hNN0))
  · rw [hMul]
    have hMlt : (m * k) % (p * q) < p * q :=
      Nat.mod_lt _ (Nat.mul_pos hp.pos hq.pos)
    apply Decrypt_intBytes_emod p q ((m * k) % (p * q)) (rr ^ k) hp hq hpq hMlt
      (Nat.Coprime.pow_left k (hrr.coprime_dvd_right (dvd_mul_right p q)))
      (Nat.Coprime.pow_left k (hrr.coprime_dvd_right (dvd_mul_left q p)))
    calc cv ^ k
        ≡ ((1 + (m : Int) * ((p : Int) * (q : Int))) * (rr : Int) ^ (p * q)) ^ k
          [ZMOD ((p : Int) * (q : Int)) ^ 2] := hvc.pow k
      _ = (1 + (m : Int) * ((p : Int) * (q : Int))) ^ k *
          ((rr : Int) ^ k) ^ (p * q) := by
            rw [mul_pow, ← pow_mul, Nat.mul_comm (p * q) k, pow_mul]
      _ ≡ (1 + (k : Int) * (m : Int) * ((p : Int) * (q : Int))) *
          ((rr : Int) ^ k) ^ (p * q)
          [ZMOD ((p : Int) * (q : Int)) ^ 2] :=
          (pow_one_add_mul (m : Int) ((p : Int) * (q : Int)) k).mul_right _
      _ = (1 + ((m * k : Nat) : Int) * ((p : Int) * (q : Int))) *
          ((rr : Int) ^ k) ^ (p * q) := by push_cast; ring
      _ ≡ (1 + (((m * k) % (p * q) : Nat) : Int) * ((p : Int) * (q : Int))) *
          ((rr : Int) ^ k) ^ (p * q)
          [ZMOD ((p : Int) * (q : Int)) ^ 2] :=
          (plaintext_slot_reduce p q (m * k)).mul_right _
      _ = (1 + (((m * k) % (p * q) : Nat) : Int) * ((p : Int) * (q : Int))) *
          ((rr ^ k : Nat) : Int) ^ (p * q) := by push_cast; ring

/-- Witness for C6: key `(5, 7)`, `m = 1`, nonce `1` (ciphertext `36`),
constant `k = 3`. -/
theorem C6_witness :
    ((setBytes (Mul (GenerateKey 5 7).toPublicKey
          (intBytes 36) (natBytes 3)) : Nat) : Int)
        = ((36 : Int) ^ 3).emod ((GenerateKey 5 7).toPublicKey.NSquared) ∧
      Decrypt (GenerateKey 5 7)
          (Mul (GenerateKey 5 7).toPublicKey (intBytes 36) (natBytes 3))
        = Except.ok (natBytes ((1 * 3) % (5 * 7))) :=
  C6_mul_amended 5 7 1 3 1 (by norm_num) (by norm_num) (by norm_num)
    (by norm_num) (by decide) 36 (by decide)

/-! ## Claim C9 -/

/-- C9: on any key whose public part satisfies the data-model invariants
(`NSquared = N1²` with a positive modulus, as holds for every generated key),
the results of `AddCipher`, `Add` and `Mul` encode integers strictly below
`N²`, so feeding them to `Decrypt` never triggers the `MessageTooLong`
branch, for arbitrary byte-sequence inputs. -/
theorem C9_homomorphic_results_in_range (priv : PrivateKey)
    (hNsq : priv.NSquared = priv.N1 * priv.N1) (hpos : 0 < priv.N1) :
    ∀ bs1 bs2 ks : List Nat,
      (((setBytes (AddCipher priv.toPublicKey bs1 bs2) : Nat) : Int)
          < priv.NSquared ∧
        Decrypt priv (AddCipher priv.toPublicKey bs1 bs2)
          ≠ Except.error PaillierErr.messageTooLong) ∧
      (((setBytes (Add priv.toPublicKey bs1 ks) : Nat) : Int) < priv.NSquared ∧
        Decrypt priv (Add priv.toPublicKey bs1 ks)
          ≠ Except.error PaillierErr.messageTooLong) ∧
      (((setBytes (Mul priv.toPublicKey bs1 ks) : Nat) : Int) < priv.NSquared ∧
        Decrypt priv (Mul priv.toPublicKey bs1 ks)
          ≠ Except.error PaillierErr.messageTooLong) := by
  intro bs1 bs2 ks
  have hNN0 : (0 : Int) < priv.NSquared := by rw [hNsq]; positivity
  have key : ∀ X : Int,
      ((setBytes (intBytes (X.emod priv.NSquared)) : Nat) : Int) < priv.NSquared ∧
        Decrypt priv (intBytes (X.emod priv.NSquared))
          ≠ Except.error PaillierErr.messageTooLong := by
    intro X
    have h0 : 0 ≤ X.emod priv.NSquared := Int.emod_nonneg _ (ne_of_gt hNN0)
    have hlt : X.emod priv.NSquared < priv.NSquared := Int.emod_lt_of_pos _ hNN0
    have hsb : ((setBytes (intBytes (X.emod priv.NSquared)) : Nat) : Int)
        = X.emod priv.NSquared := setBytes_intBytes h0
    refine ⟨by rw [hsb]; exact hlt, ?_⟩
    have hguard : ¬ (priv.NSquared
        ≤ ((setBytes (intBytes (X.emod priv.NSquared)) : Nat) : Int)) := by
      rw [hsb]
      exact not_le.mpr hlt
    simp only [Decrypt, if_neg hguard]
    exact fun hcontra => Except.noConfusion hcontra
  have hAC : AddCipher priv.toPublicKey bs1 bs2
      = intBytes ((((setBytes bs1 : Nat) : Int) *
          ((setBytes bs2 : Nat) : Int)).emod priv.NSquared) := rfl
  have hAD : Add priv.toPublicKey bs1 ks
      = intBytes ((((setBytes bs1 : Nat) : Int) *
          ((priv.toPublicKey.G ^ (((setBytes ks : Nat) : Int)).toNat).emod
            priv.NSquared)).emod priv.NSquared) := rfl
  have hMU : Mul priv.toPublicKey bs1 ks
      = intBytes ((((setBytes bs1 : Nat) : Int) ^
          (((setBytes ks : Nat) : Int)).toNat).emod priv.NSquared) := rfl
  refine ⟨?_, ?_, ?_⟩
  · rw [hAC]
    exact key _
  · rw [hAD]
    exact key _
  · rw [hMU]
    exact key _

/-- Witness for C9: key `(5, 7)`, byte inputs `[2]`, `[3]`, constant `[2]`. -/
theorem C9_witness :
    (((setBytes (AddCipher (GenerateKey 5 7).toPublicKey [2] [3]) : Nat) : Int)
        < (GenerateKey 5 7).toPublicKey.NSquared ∧
      Decrypt (GenerateKey 5 7) (AddCipher (GenerateKey 5 7).toPublicKey [2] [3])
        ≠ Except.error PaillierErr.messageTooLong) ∧
    (((setBytes (Add (GenerateKey 5 7).toPublicKey [2] [2]) : Nat) : Int)
        < (GenerateKey 5 7).toPublicKey.NSquared ∧
      Decrypt (GenerateKey 5 7) (Add (GenerateKey 5 7).toPublicKey [2] [2])
        ≠ Except.error PaillierErr.messageTooLong) ∧
    (((setBytes (Mul (GenerateKey 5 7).toPublicKey [2] [2]) : Nat) : Int)
        < (GenerateKey 5 7).toPublicKey.NSquared ∧
      Decrypt (GenerateKey 5 7) (Mul (GenerateKey 5 7).toPublicKey [2] [2])
        ≠ Except.error PaillierErr.messageTooLong) :=
  C9_homomorphic_results_in_range (GenerateKey 5 7) rfl (by decide) [2] [3] [2]

/-! ## Claim C8 -/

/-- C8 counterexample: `GenerateKey` run with `bits = 4` can receive the two
2-bit primes 2 and 3 (`N = 6`).  For the plaintext `m = 1 < N` and the
distinct nonces `r1 = 1` and `r2 = 5`, both in `[0, N)`, `EncryptWithNonce`
returns the *same* ciphertext `7`, refuting the claimed distinctness. -/
theorem C8_counterexample :
    EncryptWithNonce (GenerateKey 2 3).toPublicKey 1 (natBytes 1) = Except.ok 7 ∧
    EncryptWithNonce (GenerateKey 2 3).toPublicKey 5 (natBytes 1) = Except.ok 7 ∧
    (1 : Int) ≠ 5 := by
  refine ⟨by decide, by decide, by decide⟩

/-- From equality of the two ciphertext congruence classes, equality of the
nonce powers in `ZMod (a²)` for a prime `a` dividing the modulus. -/
theorem collision_nonce_pow (a nNat m r1 r2 : Nat) (ha : a.Prime)
    (hdvd : a ∣ nNat)
    (hA : (1 + (m : Int) * (nNat : Int)) * (r1 : Int) ^ nNat
        ≡ (1 + (m : Int) * (nNat : Int)) * (r2 : Int) ^ nNat
        [ZMOD ((nNat : Int)) ^ 2]) :
    ((r1 : ZMod (a ^ 2))) ^ nNat = ((r2 : ZMod (a ^ 2))) ^ nNat := by
  haveI : NeZero (a ^ 2) := ⟨pow_ne_zero 2 ha.pos.ne'⟩
  have hdvd2 : ((a ^ 2 : Nat) : Int) ∣ ((nNat : Int)) ^ 2 := by
    obtain ⟨t, ht⟩ := hdvd
    exact ⟨(t : Int) ^ 2, by rw [ht]; push_cast; ring⟩
  have hA2 : (1 + (m : Int) * (nNat : Int)) * (r1 : Int) ^ nNat
      ≡ (1 + (m : Int) * (nNat : Int)) * (r2 : Int) ^ nNat
      [ZMOD ((a ^ 2 : Nat) : Int)] := hA.of_dvd hdvd2
  have hZ : (((1 + (m : Int) * (nNat : Int)) * (r1 : Int) ^ nNat : Int) :
        ZMod (a ^ 2))
      = (((1 + (m : Int) * (nNat : Int)) * (r2 : Int) ^ nNat : Int) :
        ZMod (a ^ 2)) :=
    (ZMod.intCast_eq_intCast_iff _ _ _).mpr hA2
  push_cast at hZ
  have hnd : ¬ a ∣ (1 + m * nNat) := by
    intro hcon
    have hd2 : a ∣ m * nNat := Dvd.dvd.mul_left hdvd m
    have hone : a ∣ 1 := by
      have hsub := Nat.dvd_sub' hcon hd2
      rwa [Nat.add_sub_cancel] at hsub
    have := Nat.dvd_one.mp hone
    have := ha.two_le
    omega
  have hcop : Nat.Coprime (1 + m * nNat) a :=
    Nat.coprime_comm.mp ((ha.coprime_iff_not_dvd).mpr hnd)
  have hunit0 : IsUnit (((1 + m * nNat : Nat) : ZMod (a ^ 2))) :=
    (ZMod.isUnit_iff_coprime (1 + m * nNat) (a ^ 2)).mpr (hcop.pow_right 2)
  have hcast : (((1 + m * nNat : Nat) : ZMod (a ^ 2)))
      = 1 + (m : ZMod (a ^ 2)) * (nNat : ZMod (a ^ 2)) := by push_cast; ring
  rw [hcast] at hunit0
  exact hunit0.mul_left_cancel hZ

/-- Injectivity of the nonce-power map on residues coprime to a prime `a`
with `a < 2*b`, `2 < a`, `2 < b`: if `r1^(a*b) = r2^(a*b)` in `ZMod (a²)`,
then `r1 ≡ r2 (mod a)`. -/
theorem nonce_pow_inj_mod (a b r1 r2 : Nat) (ha : a.Prime) (hb : b.Prime)
    (ha2 : 2 < a) (hb2 : 2 < b) (halt : a < 2 * b)
    (hr1 : r1.Coprime a) (hr2 : r2.Coprime a)
    (hpow : ((r1 : ZMod (a ^ 2))) ^ (a * b) = ((r2 : ZMod (a ^ 2))) ^ (a * b)) :
    r1 ≡ r2 [MOD a] := by
  haveI hfact : Fact a.Prime := ⟨ha⟩
  haveI hnz : NeZero (a ^ 2) := ⟨pow_ne_zero 2 ha.pos.ne'⟩
  have hbnd : ¬ b ∣ (a - 1) := by
    intro hdvd
    obtain ⟨kk, hkk⟩ := hdvd
    have hmul : b * kk < b * 2 := by omega
    have hk2 : kk < 2 := Nat.lt_of_mul_lt_mul_left hmul
    interval_cases kk
    · omega
    · have hab1 : a = b + 1 := by omega
      have hbodd : Odd b := hb.odd_of_ne_two (by omega)
      have haeven : Even a := by rw [hab1]; exact Odd.add_one hbodd
      have := (ha.even_iff).mp haeven
      omega
  have hgcdb : Nat.Coprime b (a - 1) := (hb.coprime_iff_not_dvd).mpr hbnd
  set w1 := ZMod.unitOfCoprime r1 (hr1.pow_right 2) with hw1def
  set w2 := ZMod.unitOfCoprime r2 (hr2.pow_right 2) with hw2def
  have hw : w1 ^ (a * b) = w2 ^ (a * b) := by
    apply Units.ext
    rw [Units.val_pow_eq_pow_val, Units.val_pow_eq_pow_val, hw1def, hw2def,
      ZMod.coe_unitOfCoprime, ZMod.coe_unitOfCoprime]
    exact hpow
  have hord1 : orderOf (w1 * w2⁻¹) ∣ a * b := by
    apply orderOf_dvd_of_pow_eq_one
    rw [mul_pow, inv_pow, hw]
    simp
  have hcard : orderOf (w1 * w2⁻¹) ∣ a * (a - 1) := by
    have hdvd := orderOf_dvd_card (x := w1 * w2⁻¹)
    rw [ZMod.card_units_eq_totient,
      Nat.totient_prime_pow ha (by norm_num : 0 < 2)] at hdvd
    simpa using hdvd
  have horda : orderOf (w1 * w2⁻¹) ∣ a := by
    have hg := Nat.dvd_gcd hord1 hcard
    rwa [Nat.gcd_mul_left, hgcdb, mul_one] at hg
  have hpa : (w1 * w2⁻¹) ^ a = 1 := orderOf_dvd_iff_pow_eq_one.mp horda
  have hwa : w1 ^ a = w2 ^ a := by
    have h1 : w1 ^ a * (w2 ^ a)⁻¹ = 1 := by
      rw [← inv_pow, ← mul_pow]
      exact hpa
    exact mul_inv_eq_one.mp h1
  have hva : ((r1 : ZMod (a ^ 2))) ^ a = ((r2 : ZMod (a ^ 2))) ^ a := by
    have hcoe := congrArg (Units.val) hwa
    rwa [Units.val_pow_eq_pow_val, Units.val_pow_eq_pow_val, hw1def, hw2def,
      ZMod.coe_unitOfCoprime, ZMod.coe_unitOfCoprime] at hcoe
  have hdvda : a ∣ a ^ 2 := dvd_pow_self a two_ne_zero
  have hmap := congrArg (ZMod.castHom hdvda (ZMod a)) hva
  rw [map_pow, map_pow, map_natCast, map_natCast, ZMod.pow_card,
    ZMod.pow_card] at hmap
  exact (ZMod.natCast_eq_natCast_iff r1 r2 a).mp hmap

/-- C8 (amended): for every key pair from two **distinct odd primes of equal
bit length** (`2 < p`, `2 < q`, `p ≠ q`, `p < 2q`, `q < 2p` — exactly what
`GenerateKey`'s equal-bit-length prime searches guarantee for sizes above 4),
plaintext `m < N`, and distinct nonces `r1 ≠ r2` in `[0, N)` **coprime to
`N`**: the two ciphertexts are distinct and both decrypt to `m`.  (The
original claim fails both for nonces not coprime to `N` and for the
degenerate equal-bit-length pair `{2, 3}`; see `C8_counterexample`.) -/
theorem C8_probabilistic_amended (p q m r1 r2 : Nat) (hp : p.Prime)
    (hq : q.Prime) (hp2 : 2 < p) (hq2 : 2 < q) (hpq : p ≠ q)
    (hplt : p < 2 * q) (hqlt : q < 2 * p) (hm : m < p * q)
    (hr1lt : r1 < p * q) (hr2lt : r2 < p * q)
    (hr1 : r1.Coprime (p * q)) (hr2 : r2.Coprime (p * q)) (hner : r1 ≠ r2) :
    ∀ c1 c2 : Int,
      EncryptWithNonce (GenerateKey p q).toPublicKey (r1 : Int) (natBytes m)
          = Except.ok c1 →
      EncryptWithNonce (GenerateKey p q).toPublicKey (r2 : Int) (natBytes m)
          = Except.ok c2 →
      c1 ≠ c2 ∧
        Decrypt (GenerateKey p q) (intBytes c1) = Except.ok (natBytes m) ∧
        Decrypt (GenerateKey p q) (intBytes c2) = Except.ok (natBytes m) := by
  intro c1 c2 h1 h2
  refine ⟨?_, ?_, ?_⟩
  · intro hceq
    have hc1 := enc_ok_inv hm h1
    have hc2 := enc_ok_inv hm h2
    obtain ⟨_, _, hv1c⟩ := encVal_spec p q (r1 : Int) m hp.pos hq.pos
    obtain ⟨_, _, hv2c⟩ := encVal_spec p q (r2 : Int) m hp.pos hq.pos
    rw [← hc1] at hv1c
    rw [← hc2] at hv2c
    rw [hceq] at hv1c
    have hA : (1 + (m : Int) * ((p : Int) * (q : Int))) * (r1 : Int) ^ (p * q)
        ≡ (1 + (m : Int) * ((p : Int) * (q : Int))) * (r2 : Int) ^ (p * q)
        [ZMOD ((p : Int) * (q : Int)) ^ 2] := hv1c.symm.trans hv2c
    have hAn : (1 + (m : Int) * ((p * q : Nat) : Int)) * (r1 : Int) ^ (p * q)
        ≡ (1 + (m : Int) * ((p * q : Nat) : Int)) * (r2 : Int) ^ (p * q)
        [ZMOD (((p * q : Nat) : Int)) ^ 2] := by
      push_cast
      exact hA
    have hr1p : r1.Coprime p := hr1.coprime_dvd_right (dvd_mul_right p q)
    have hr2p : r2.Coprime p := hr2.coprime_dvd_right (dvd_mul_right p q)
    have hr1q : r1.Coprime q := hr1.coprime_dvd_right (dvd_mul_left q p)
    have hr2q : r2.Coprime q := hr2.coprime_dvd_right (dvd_mul_left q p)
    have hpow1 := collision_nonce_pow p (p * q) m r1 r2 hp (dvd_mul_right p q) hAn
    have hpow2 := collision_nonce_pow q (p * q) m r1 r2 hq (dvd_mul_left q p) hAn
    have hpow2q : ((r1 : ZMod (q ^ 2))) ^ (q * p) = ((r2 : ZMod (q ^ 2))) ^ (q * p) := by
      rwa [Nat.mul_comm q p]
    have hmod1 := nonce_pow_inj_mod p q r1 r2 hp hq hp2 hq2 hplt hr1p hr2p hpow1
    have hmod2 := nonce_pow_inj_mod q p r1 r2 hq hp hq2 hp2 hqlt hr1q hr2q hpow2q
    have hmodpq : r1 ≡ r2 [MOD p * q] :=
      (Nat.modEq_and_modEq_iff_modEq_mul
        ((Nat.coprime_primes hp hq).mpr hpq)).mp ⟨hmod1, hmod2⟩
    have heq : r1 = r2 := by
      unfold Nat.ModEq at hmodpq
      rwa [Nat.mod_eq_of_lt hr1lt, Nat.mod_eq_of_lt hr2lt] at hmodpq
    exact hner heq
  · obtain ⟨cv, hcv, hdec⟩ := roundTrip p q m r1 hp hq hpq hm
      (hr1.coprime_dvd_right (dvd_mul_right p q))
      (hr1.coprime_dvd_right (dvd_mul_left q p))
    have hc : c1 = cv := Except.ok.inj (h1.symm.trans hcv)
    rw [hc]
    exact hdec
  · obtain ⟨cv, hcv, hdec⟩ := roundTrip p q m r2 hp hq hpq hm
      (hr2.coprime_dvd_right (dvd_mul_right p q))
      (hr2.coprime_dvd_right (dvd_mul_left q p))
    have hc : c2 = cv := Except.ok.inj (h2.symm.trans hcv)
    rw [hc]
    exact hdec

/-- Witness for C8: key `(5, 7)`, plaintext `1`, nonces `2` and `3`
(ciphertexts `648` and `1027`). -/
theorem C8_witness :
    (648 : Int) ≠ 1027 ∧
      Decrypt (GenerateKey 5 7) (intBytes 648) = Except.ok (natBytes 1) ∧
      Decrypt (GenerateKey 5 7) (intBytes 1027) = Except.ok (natBytes 1) :=
  C8_probabilistic_amended 5 7 1 2 3 (by norm_num) (by norm_num) (by norm_num)
    (by norm_num) (by norm_num) (by norm_num) (by norm_num) (by norm_num)
    (by norm_num) (by norm_num) (by decide) (by decide) (by norm_num)
    648 1027 (by decide) (by decide)

end Paillier
